import Mathlib

/-!
Formal model of `dictdiffer/extractors.py`: the meta-patch data model, the four
extractor algorithms (`DictExtractor`, `ListExtractor`, `SetExtractor`,
`SequenceExtractor`) and the `Extractor` registry.

Modelling conventions:
* Python generator functions become Lean functions returning a `List` of
  patches, materialised in emission order.
* Python `None` becomes `Option.none`; a Python 5-tuple meta patch becomes the
  `Patch` structure below.
* Python dictionaries become association lists, Python sets become `Finset`.
* The external `difflib.SequenceMatcher` (the LCS-opcode generator, an external
  collaborator of this layer) is modelled by its interface contract: an opcode
  list covering both inputs contiguously, taken as an argument.
-/

namespace Dictdiffer

/-- The `action` field of a meta patch: `'insert' | 'delete' | 'change'`. -/
inductive Action
  | insert
  | delete
  | change
deriving DecidableEq

/-- A *meta patch* as yielded by every extractor: the Python 5-tuple
`(action, old_position, new_position, old_value, new_value)`, with `none`
standing for Python `None`.  `κ` is the position/key type and `β` the payload
type (dict values, list elements, or whole sets for `SetExtractor`). -/
structure Patch (κ β : Type) where
  action : Action
  oldPos : Option κ
  newPos : Option κ
  oldVal : Option β
  newVal : Option β
deriving DecidableEq

/-- First disjunct of the spec §3 patch invariant: `insert` with `old_value`
absent. -/
def Patch.condIns (p : Patch κ β) : Bool :=
  decide (p.action = Action.insert) && p.oldVal.isNone

/-- Second disjunct of the spec §3 patch invariant: `delete` with `new_value`
absent. -/
def Patch.condDel (p : Patch κ β) : Bool :=
  decide (p.action = Action.delete) && p.newVal.isNone

/-- Third disjunct of the spec §3 patch invariant: `change` with both values
present. -/
def Patch.condChg (p : Patch κ β) : Bool :=
  decide (p.action = Action.change) && p.oldVal.isSome && p.newVal.isSome

/-- Exactly one of the three patch-invariant disjuncts holds. -/
def Patch.wf (p : Patch κ β) : Bool :=
  (p.condIns && !p.condDel && !p.condChg) ||
  (!p.condIns && p.condDel && !p.condChg) ||
  (!p.condIns && !p.condDel && p.condChg)

namespace ListExtractor

/-- The loop body of `ListExtractor.extract` (`extractors.py` lines 111-119):
iterate `i` from `0` to `max_length - 1`; within both lengths yield `change`;
past `first`'s length yield `insert`; otherwise (second exhausted) yield
`delete` for every remaining index in descending order and stop. -/
def go {α : Type} [Inhabited α] (first second : List α) (maxLength i : Nat) :
    List (Patch Nat α) :=
  if _h : i < maxLength then
    if i < min first.length second.length then
      ⟨.change, some i, some i, some (first.getD i default),
        some (second.getD i default)⟩ :: go first second maxLength (i + 1)
    else if first.length ≤ i then
      ⟨.insert, some i, some i, none, some (second.getD i default)⟩ ::
        go first second maxLength (i + 1)
    else
      (List.range' i (maxLength - i)).reverse.map
        (fun j => ⟨.delete, some j, some j, some (first.getD j default), none⟩)
  else []
termination_by maxLength - i

/-- `ListExtractor.extract` (`extractors.py` lines 100-119).  The source
signature also takes `node`, `dotted_node` and `ignore`, all unused by the
body; they are omitted here. -/
def extract {α : Type} [Inhabited α] (first second : List α) :
    List (Patch Nat α) :=
  go first second (max first.length second.length) 0

end ListExtractor

namespace SetExtractor

/-- `SetExtractor.extract` (`extractors.py` lines 132-143): one aggregate
`insert` patch when `second - first` is non-empty, then one aggregate `delete`
patch when `first - second` is non-empty.  The unused `node`, `dotted_node`,
`ignore` arguments of the source signature are omitted. -/
def extract {β : Type} [DecidableEq β] (first second : Finset β) :
    List (Patch Unit (Finset β)) :=
  (if second \ first = ∅ then []
   else [⟨.insert, none, none, none, some (second \ first)⟩]) ++
  (if first \ second = ∅ then []
   else [⟨.delete, none, none, some (first \ second), none⟩])

end SetExtractor

/-- An entry of the *ignore* set: either a segment-list path or a dotted
string path (the two matching conventions of `extractors.py` lines 74-78). -/
inductive PathSpec (κ : Type)
  | segs (p : List κ)
  | dotted (s : String)
deriving DecidableEq

/-- The `dotted_node` argument.  The source branches on
`isinstance(dotted_node, list)`, so the argument is either a segment list or
a pre-joined dotted string (whose text the list branch never reads). -/
inductive DottedNode (κ : Type)
  | listForm (p : List κ)
  | strForm (s : String)

/-- First-match association-list lookup, modelling `d[k]` / `k in d` on a
Python dict represented as an association list. -/
def dlookup {κ β : Type} [DecidableEq κ] (k : κ) : List (κ × β) → Option β
  | [] => none
  | (k', v) :: rest => if k' = k then some v else dlookup k rest

namespace DictExtractor

/-- The `check` closure of `DictExtractor.extract` (`extractors.py` lines
74-78): a key is kept when `ignore` is `None`, or when the key's path — in
the form selected by the type of `dotted_node` — is not in `ignore`.
Python `str(key)` is modelled by `ToString`. -/
def check {κ : Type} [DecidableEq κ] [ToString κ] (node : List String)
    (dottedNode : DottedNode κ) (ignore : Option (List (PathSpec κ)))
    (key : κ) : Bool :=
  match ignore with
  | none => true
  | some ig =>
    match dottedNode with
    | .listForm p => decide (PathSpec.segs (p ++ [key]) ∉ ig)
    | .strForm _ =>
        decide (PathSpec.dotted
          (String.intercalate "." (node ++ [toString key])) ∉ ig)

/-- The loop body of `DictExtractor.extract` (`extractors.py` lines 80-86):
the source's `if`/`elif` chain classifying one key by its presence in
`first` and `second`, guarded by `check`. -/
def classify {κ β : Type} [DecidableEq κ] [ToString κ]
    (first second : List (κ × β)) (node : List String)
    (dottedNode : DottedNode κ) (ignore : Option (List (PathSpec κ)))
    (k : κ) : Option (Patch κ β) :=
  match dlookup k first, dlookup k second with
  | some a, some b =>
      if check node dottedNode ignore k then
        some ⟨.change, some k, some k, some a, some b⟩
      else none
  | some a, none =>
      if check node dottedNode ignore k then
        some ⟨.delete, some k, some k, some a, none⟩
      else none
  | none, some b =>
      if check node dottedNode ignore k then
        some ⟨.insert, some k, some k, none, some b⟩
      else none
  | none, none => none

/-- `DictExtractor.extract` (`extractors.py` lines 67-86): iterate over
`set(first.keys() + second.keys())` — modelled as the first-occurrence
deduplicated key union — and classify each key. -/
def extract {κ β : Type} [DecidableEq κ] [ToString κ]
    (first second : List (κ × β)) (node : List String)
    (dottedNode : DottedNode κ) (ignore : Option (List (PathSpec κ))) :
    List (Patch κ β) :=
  ((first.map Prod.fst ++ second.map Prod.fst).dedup).filterMap
    (classify first second node dottedNode ignore)

end DictExtractor

/-! ## Canonicalizer (`SequenceExtractor._make_hashable` and `SetTuple`) -/

/-- Scalar (non-container) Python values appearing as leaves. -/
inductive PyScalar
  | pyNone
  | int (n : Int)
  | str (s : String)
deriving DecidableEq

/-- A model of the Python values handled by `SequenceExtractor._make_hashable`:
scalars, lists, sets and dicts.  A set is carried as its element list. -/
inductive PyV
  | scalar (s : PyScalar)
  | list (xs : List PyV)
  | set (xs : List PyV)
  | dict (entries : List (PyV × PyV))

/-- Cross-type rank of the Python 2 default ordering: `None` smallest, then
numbers, then the remaining types ordered by type name
(`'dict' < 'list' < 'set' < 'str'`). -/
def PyV.typeRank : PyV → Nat
  | .scalar .pyNone => 0
  | .scalar (.int _) => 1
  | .dict _ => 2
  | .list _ => 3
  | .set _ => 4
  | .scalar (.str _) => 5

mutual

/-- A model of Python 2 `cmp`, as used by `sorted` inside `_make_hashable`:
`None < numbers < (other types by type name)`; equal-type containers compare
lexicographically. -/
def pyCmp : PyV → PyV → Ordering
  | .scalar (.int a), .scalar (.int b) => compare a b
  | .scalar (.str a), .scalar (.str b) => compare a b
  | .list xs, .list ys => pyCmpList xs ys
  | .set xs, .set ys => pyCmpList xs ys
  | .dict es, .dict fs => pyCmpPairs es fs
  | x, y => compare x.typeRank y.typeRank

/-- Lexicographic comparison of value lists. -/
def pyCmpList : List PyV → List PyV → Ordering
  | [], [] => .eq
  | [], _ :: _ => .lt
  | _ :: _, [] => .gt
  | x :: xs, y :: ys =>
    match pyCmp x y with
    | .eq => pyCmpList xs ys
    | o => o

/-- Lexicographic comparison of key-value pair lists. -/
def pyCmpPairs : List (PyV × PyV) → List (PyV × PyV) → Ordering
  | [], [] => .eq
  | [], _ :: _ => .lt
  | _ :: _, [] => .gt
  | (k, v) :: xs, (k', v') :: ys =>
    match pyCmp k k' with
    | .eq =>
      match pyCmp v v' with
      | .eq => pyCmpPairs xs ys
      | o => o
    | o => o

end

/-- Insert a value into an already sorted list (stable, as Python `sorted`). -/
def pyInsert (x : PyV) : List PyV → List PyV
  | [] => [x]
  | y :: ys => if pyCmp x y = .gt then y :: pyInsert x ys else x :: y :: ys

/-- Python `sorted` on a set's elements, modelled as insertion sort by
`pyCmp`. -/
def pySort : List PyV → List PyV
  | [] => []
  | x :: xs => pyInsert x (pySort xs)

/-- Membership is preserved by `pyInsert` (termination helper for `canon`). -/
theorem mem_pyInsert {a x : PyV} : ∀ {l : List PyV},
    a ∈ pyInsert x l → a = x ∨ a ∈ l := by
  intro l
  induction l with
  | nil => simp [pyInsert]
  | cons y ys ih =>
    simp only [pyInsert]
    split
    · intro h
      rcases List.mem_cons.mp h with h | h
      · exact Or.inr (List.mem_cons.mpr (Or.inl h))
      · rcases ih h with h | h
        · exact Or.inl h
        · exact Or.inr (List.mem_cons.mpr (Or.inr h))
    · intro h
      rcases List.mem_cons.mp h with h | h
      · exact Or.inl h
      · exact Or.inr h

/-- Membership is preserved by `pySort` (termination helper for `canon`). -/
theorem mem_pySort {a : PyV} : ∀ {l : List PyV}, a ∈ pySort l → a ∈ l := by
  intro l
  induction l with
  | nil => simp [pySort]
  | cons x xs ih =>
    intro h
    rcases mem_pyInsert h with h | h
    · exact h ▸ List.mem_cons_self x xs
    · exact List.mem_cons.mpr (Or.inr (ih h))

/-- Insert a key-value pair into a sorted pair list. -/
def pyInsertPair (x : PyV × PyV) : List (PyV × PyV) → List (PyV × PyV)
  | [] => [x]
  | y :: ys =>
    if pyCmpPairs [x] [y] = .gt then y :: pyInsertPair x ys else x :: y :: ys

/-- Python `sorted(t.items())`, modelled as insertion sort on the pair list. -/
def pySortPairs : List (PyV × PyV) → List (PyV × PyV)
  | [] => []
  | x :: xs => pyInsertPair x (pySortPairs xs)

/-- A canonical projection produced by `_make_hashable`: a scalar unchanged, a
plain tuple from a list, a `SetTuple` from a set, or the opaque hash surrogate
`hash(repr(sorted(t.items())))` from a dict.  The surrogate is modelled
injectively by the sorted item list itself, since the hash's integer value is
implementation data of the Python runtime. -/
inductive Canon
  | base (s : PyScalar)
  | tup (xs : List Canon)
  | setTup (xs : List Canon)
  | hashVal (entries : List (PyV × PyV))

/-- `SequenceExtractor._make_hashable` (`extractors.py` lines 166-180):
lists canonicalize elementwise into tuples; sets are sorted, canonicalized
elementwise and wrapped in `SetTuple`; dicts collapse to the hash surrogate;
anything else is returned unchanged. -/
def canon : PyV → Canon
  | .scalar s => .base s
  | .list xs => .tup (xs.attach.map fun z => canon z.1)
  | .set xs => .setTup ((pySort xs).attach.map fun z => canon z.1)
  | .dict es => .hashVal (pySortPairs es)
decreasing_by
  · have := List.sizeOf_lt_of_mem z.2
    simp only [PyV.list.sizeOf_spec]
    omega
  · have := List.sizeOf_lt_of_mem (mem_pySort z.2)
    simp only [PyV.set.sizeOf_spec]
    omega

/-- Python `None == c` on a canonical value: true exactly for canonical
`None`.  This is what comparing an `izip_longest` fill value against an
element evaluates to. -/
def Canon.isPyNone : Canon → Bool
  | .base .pyNone => true
  | _ => false

mutual

/-- Python `==` on canonical projections.  Plain tuples compare elementwise
at equal lengths; `SetTuple.__eq__` (`extractors.py` lines 154-156) first
requires the exact same projection type and then compares over
`izip_longest` with `None` padding; dict hash surrogates compare as the
(injectively modelled) hash values; values of different projection types
never compare equal — for `tuple` vs `SetTuple` the subclass's `__eq__`
takes priority in Python's rich comparison and its type check fails. -/
def canonEq : Canon → Canon → Bool
  | .base a, .base b => decide (a = b)
  | .tup xs, .tup ys => decide (xs.length = ys.length) && canonEqAll xs ys
  | .setTup xs, .setTup ys => canonEqPad xs ys
  | .hashVal es, .hashVal fs => decide (pyCmpPairs es fs = Ordering.eq)
  | _, _ => false

/-- Elementwise Python `==` over two canonical sequences (tuple comparison
after the length check). -/
def canonEqAll : List Canon → List Canon → Bool
  | [], _ => true
  | _ :: _, [] => true
  | x :: xs, y :: ys => canonEq x y && canonEqAll xs ys

/-- `all(map(lambda x: x[0] == x[1], izip_longest(self, y)))`: elementwise
Python `==` with the shorter side padded by `None`. -/
def canonEqPad : List Canon → List Canon → Bool
  | [], [] => true
  | [], y :: ys => y.isPyNone && canonEqPad [] ys
  | x :: xs, [] => x.isPyNone && canonEqPad xs []
  | x :: xs, y :: ys => canonEq x y && canonEqPad xs ys

end

/-- Right-pad a canonical sequence with canonical `None` up to length `n`. -/
def padTo (n : Nat) (xs : List Canon) : List Canon :=
  xs ++ List.replicate (n - xs.length) (Canon.base .pyNone)

/-- Strict pairwise equality of canonical sequences: equal lengths and
elementwise Python `==`. -/
def seqPairwiseEq (xs ys : List Canon) : Bool :=
  decide (xs.length = ys.length) && canonEqAll xs ys

/-! ## Sequence extractor (`SequenceExtractor.extract`) -/

/-- The kind of an opcode of the external LCS generator
(`difflib.SequenceMatcher.get_opcodes`). -/
inductive OpTag
  | equal
  | insert
  | delete
  | replace
deriving DecidableEq

/-- One opcode `(tag, i1, i2, j1, j2)`: half-open ranges `[i1, i2)` into the
first sequence and `[j1, j2)` into the second. -/
structure Opcode where
  tag : OpTag
  i1 : Nat
  i2 : Nat
  j1 : Nat
  j2 : Nat
deriving DecidableEq

/-- The contract of the external LCS-opcode generator (spec §6), continued
from position `(i, j)`: opcodes cover both inputs contiguously with no gaps,
ranges are in bounds, `equal` opcodes carry equal-length ranges whose slices
match, `insert` has an empty old range, `delete` an empty new range, and
`replace` two non-empty ranges (as `difflib.SequenceMatcher` guarantees). -/
def validFrom {α : Type} [DecidableEq α] (a b : List α) :
    Nat → Nat → List Opcode → Bool
  | i, j, [] => decide (i = a.length) && decide (j = b.length)
  | i, j, op :: rest =>
    decide (op.i1 = i) && decide (op.j1 = j) &&
    decide (op.i2 ≤ a.length) && decide (op.j2 ≤ b.length) &&
    (match op.tag with
     | .equal =>
        decide (op.i1 < op.i2) && decide (op.i2 - op.i1 = op.j2 - op.j1) &&
        decide ((a.drop op.i1).take (op.i2 - op.i1) =
                (b.drop op.j1).take (op.j2 - op.j1))
     | .insert => decide (op.i1 = op.i2) && decide (op.j1 < op.j2)
     | .delete => decide (op.j1 = op.j2) && decide (op.i1 < op.i2)
     | .replace => decide (op.i1 < op.i2) && decide (op.j1 < op.j2)) &&
    validFrom a b op.i2 op.j2 rest

/-- A full opcode list for `(a, b)`: the §6 contract started at `(0, 0)`. -/
def validOps {α : Type} [DecidableEq α] (a b : List α)
    (ops : List Opcode) : Bool :=
  validFrom a b 0 0 ops

namespace SequenceExtractor

/-- The opcode-translation loop of `SequenceExtractor.extract`
(`extractors.py` lines 197-237), with the two running counters
`latest_insertions` / `latest_deletions` as arguments.  Emitted positions are
integers, exactly as computed by the Python expressions.  In the `replace`
arm, `last_old_path` is only read when `min(len(old_range), len(new_range))`
is at least 1, which the matcher guarantees; the `c = 0` corner (where the
Python generator would read an undefined or stale variable) is given by the
same truncated-subtraction formula. -/
def go {α : Type} [Inhabited α] (first second : List α) :
    List Opcode → Nat → Nat → List (Patch Int α)
  | [], _, _ => []
  | op :: rest, ins, del =>
    match op.tag with
    | .equal => go first second rest ins del
    | .insert =>
        ((List.range (op.j2 - op.j1)).map fun t =>
          ⟨.insert, some ((op.i1 : Int) + t + ins - del),
            some ((op.j1 + t : Nat) : Int), none,
            some (second.getD (op.j1 + t) default)⟩) ++
        go first second rest (ins + (op.j2 - op.j1)) del
    | .delete =>
        ((List.range (op.i2 - op.i1)).reverse.map fun t =>
          ⟨.delete, some ((op.i1 + t : Nat) - (del : Int) + ins),
            some ((op.i1 + t : Nat) - (del : Int) + ins),
            some (first.getD (op.i1 + t) default), none⟩) ++
        go first second rest ins (del + (op.i2 - op.i1))
    | .replace =>
        let m := op.i2 - op.i1
        let n := op.j2 - op.j1
        let c := min m n
        let lastOldPath : Int := ((op.i1 + c - 1 : Nat) : Int) + ins - del
        ((List.range c).map fun t =>
          ⟨.change, some ((op.i1 + t : Nat) + (ins : Int) - del),
            some ((op.j1 + t : Nat) : Int),
            some (first.getD (op.i1 + t) default),
            some (second.getD (op.j1 + t) default)⟩) ++
        (if m < n then
          ((List.range (n - c)).map fun k =>
            ⟨.insert, some (lastOldPath + 1 + k),
              some ((op.j1 + c + k : Nat) : Int), none,
              some (second.getD (op.j1 + c + k) default)⟩) ++
          go first second rest (ins + (n - c)) del
         else if n < m then
          ((List.range (m - c)).reverse.map fun k =>
            ⟨.delete, some ((op.i1 + c + k : Nat) + (ins : Int) - del),
              some ((op.i1 + c + k : Nat) + (ins : Int) - del),
              some (first.getD (op.i1 + c + k) default), none⟩) ++
          go first second rest ins (del + (m - c))
         else go first second rest ins del)

/-- `SequenceExtractor.extract` (`extractors.py` lines 182-237).  The opcode
list argument stands for the output of the external
`difflib.SequenceMatcher(None, _make_hashable(first), _make_hashable(second))
.get_opcodes()` call; the translation into patches is the source's loop with
both counters starting at zero. -/
def extract {α : Type} [Inhabited α] (first second : List α)
    (ops : List Opcode) : List (Patch Int α) :=
  go first second ops 0 0

end SequenceExtractor

/-- Replay semantics of one meta patch on a list, per spec §4.6 and C1:
`insert` inserts `new_value` at `old_position`, `delete` removes the element
at `old_position`, `change` overwrites the element at `old_position`.
Out-of-range positions (or a missing position/payload) fail. -/
def applyPatch {α : Type} (l : List α) (p : Patch Int α) : Option (List α) :=
  match p.action, p.oldPos with
  | .insert, some pos =>
    match p.newVal with
    | some v =>
        if 0 ≤ pos ∧ pos.toNat ≤ l.length then some (l.insertIdx pos.toNat v)
        else none
    | none => none
  | .delete, some pos =>
      if 0 ≤ pos ∧ pos.toNat < l.length then some (l.eraseIdx pos.toNat)
      else none
  | .change, some pos =>
    match p.newVal with
    | some v =>
        if 0 ≤ pos ∧ pos.toNat < l.length then some (l.set pos.toNat v)
        else none
    | none => none
  | _, none => none

/-- Apply a patch list strictly in emission order. -/
def replay {α : Type} (l : List α) (ps : List (Patch Int α)) :
    Option (List α) :=
  ps.foldlM applyPatch l

/-! ## Extractor registry (`Extractor.__init__`, `get_default_extractors`) -/

/-- Tags for the four extractor classes. -/
inductive ExtractorId
  | dictE
  | listE
  | setE
  | seqE
deriving DecidableEq

/-- Keys of the extractor mapping: the Python type objects `dict`, `list`,
`set`, and the string key `'default'`. -/
inductive ExtKey
  | keyDict
  | keyList
  | keySet
  | keyDefault
deriving DecidableEq

/-- A value of the extractor mapping: one extractor class, or the fallback
chain stored under `'default'`. -/
inductive ExtEntry
  | single (e : ExtractorId)
  | chain (es : List ExtractorId)
deriving DecidableEq

/-- Modelled from the spec: `PathLimit` lives in `dictdiffer.utils`, which is
not among the source files; spec §6 specifies the path limiter as an opaque
recursion-limiting capability whose default is "unlimited", so the
no-argument `PathLimit()` constructed at `extractors.py` line 43 is the
no-limit value. -/
inductive PathLimit
  | unlimited
  | limited (paths : List (List String))
deriving DecidableEq

/-- Python `dict.update`: entries of `upd` replace same-key entries of
`base`; keys of `base` not mentioned in `upd` keep their value; keys of
`upd` absent from `base` are appended. -/
def dictUpdate {κ β : Type} [DecidableEq κ] (base upd : List (κ × β)) :
    List (κ × β) :=
  (base.map fun kv => (kv.1, (dlookup kv.1 upd).getD kv.2)) ++
  upd.filter fun kv => (dlookup kv.1 base).isNone

/-- The default extractor table built in `Extractor.__init__`
(`extractors.py` lines 30-35). -/
def defaultExtractorTable : List (ExtKey × ExtEntry) :=
  [(.keyDict, .single .dictE), (.keyList, .single .listE),
   (.keySet, .single .setE),
   (.keyDefault, .chain [.dictE, .listE, .setE])]

/-- `get_default_extractors` (`extractors.py` lines 240-248). -/
def get_default_extractors : List (ExtKey × ExtEntry) :=
  [(.keyDict, .single .dictE), (.keyList, .single .listE),
   (.keySet, .single .setE),
   (.keyDefault, .chain [.dictE, .listE, .setE])]

/-- The `Extractor` wrapper's configuration state after `__init__`; `ι` is
the type of the caller's *ignore* argument, stored as given. -/
structure ExtractorConfig (ι : Type) where
  extractors : List (ExtKey × ExtEntry)
  ignore : Option ι
  tryDefault : Bool
  expand : Bool
  pathLimit : PathLimit

/-- `Extractor.__init__` (`extractors.py` lines 19-43): build the default
table, merge a truthy (non-`None`, non-empty) `extractor_update` into it via
`dict.update`, store the flags, and replace a falsy `path_limit` by
`PathLimit()`. -/
def Extractor.init {ι : Type}
    (extractorUpdate : Option (List (ExtKey × ExtEntry)))
    (ignore : Option ι) (tryDefault : Bool) (expand : Bool)
    (pathLimit : Option PathLimit) : ExtractorConfig ι :=
  { extractors :=
      match extractorUpdate with
      | none => defaultExtractorTable
      | some upd =>
          if upd.isEmpty then defaultExtractorTable
          else dictUpdate defaultExtractorTable upd
    ignore := ignore
    tryDefault := tryDefault
    expand := expand
    pathLimit :=
      match pathLimit with
      | none => PathLimit.unlimited
      | some p => p }

/-! ## List extractor: closed form -/

/-- While `i` is below both lengths the loop yields one `change` patch per
index. -/
theorem ListExtractor.go_change_prefix {α : Type} [Inhabited α]
    (first second : List α) (mx : Nat)
    (hmx : min first.length second.length ≤ mx) :
    ∀ k i, i + k ≤ min first.length second.length →
    ListExtractor.go first second mx i =
      ((List.range' i k).map fun t =>
        ⟨.change, some t, some t, some (first.getD t default),
          some (second.getD t default)⟩) ++
      ListExtractor.go first second mx (i + k) := by
  intro k
  induction k with
  | zero => intro i _; simp
  | succ k ih =>
    intro i hik
    have hilt : i < min first.length second.length := by omega
    have himx : i < mx := by omega
    rw [ListExtractor.go, dif_pos himx, if_pos hilt, List.range'_succ,
      List.map_cons, List.cons_append, ih (i + 1) (by omega)]
    have : i + 1 + k = i + (k + 1) := by omega
    rw [this]

/-- Once `i` has passed `first`'s length the loop yields one `insert` patch
per remaining index (here the maximum length is `second`'s). -/
theorem ListExtractor.go_insert_tail {α : Type} [Inhabited α]
    (first second : List α) (hls : first.length ≤ second.length) :
    ∀ k i, first.length ≤ i → i + k = second.length →
    ListExtractor.go first second second.length i =
      (List.range' i k).map fun t =>
        ⟨.insert, some t, some t, none, some (second.getD t default)⟩ := by
  intro k
  induction k with
  | zero =>
    intro i _ hik
    rw [ListExtractor.go, dif_neg (by omega)]
    simp
  | succ k ih =>
    intro i hfi hik
    have himx : i < second.length := by omega
    have hnotmin : ¬ i < min first.length second.length := by omega
    rw [ListExtractor.go, dif_pos himx, if_neg hnotmin, if_pos hfi,
      List.range'_succ, List.map_cons, ih (i + 1) (by omega) (by omega)]

/-- `ListExtractor.extract` in closed form: one `change` patch per shared
index, then — when `second` is longer — one `insert` per trailing index in
ascending order, or — when `first` is longer — one `delete` per trailing
index in descending order. -/
theorem ListExtractor.extract_closed_form {α : Type} [Inhabited α]
    (first second : List α) :
    ListExtractor.extract first second =
      ((List.range (min first.length second.length)).map fun t =>
        ⟨.change, some t, some t, some (first.getD t default),
          some (second.getD t default)⟩) ++
      (if first.length < second.length then
        (List.range' first.length (second.length - first.length)).map fun t =>
          ⟨.insert, some t, some t, none, some (second.getD t default)⟩
       else
        (List.range' second.length
            (first.length - second.length)).reverse.map fun j =>
          ⟨.delete, some j, some j, some (first.getD j default), none⟩) := by
  have hbase := ListExtractor.go_change_prefix first second
    (max first.length second.length) (by omega)
    (min first.length second.length) 0 (by omega)
  rw [ListExtractor.extract, hbase, List.range_eq_range']
  congr 1
  rcases Nat.lt_trichotomy first.length second.length with hlt | heq | hgt
  · rw [if_pos hlt]
    have hmin : min first.length second.length = first.length := by omega
    have hmax : max first.length second.length = second.length := by omega
    rw [hmin, hmax, Nat.zero_add]
    exact ListExtractor.go_insert_tail first second (by omega)
      (second.length - first.length) first.length (by omega) (by omega)
  · have hmin : min first.length second.length = first.length := by omega
    have hmax : max first.length second.length = first.length := by omega
    rw [if_neg (by omega), hmin, hmax, Nat.zero_add, ListExtractor.go,
      dif_neg (by omega)]
    rw [heq]
    simp
  · have hmin : min first.length second.length = second.length := by omega
    have hmax : max first.length second.length = first.length := by omega
    rw [if_neg (by omega), hmin, hmax, Nat.zero_add, ListExtractor.go,
      dif_pos (by omega), if_neg (by omega), if_neg (by omega)]

/-- C4: `ListExtractor.extract` yields exactly
`max (len first) (len second)` patches: a `change` patch at each index
`i < min` of the lengths, all preceding the trailing run; when `second` is
longer, an `insert` per trailing index in ascending order; when `first` is
longer, a `delete` per remaining index in descending order from
`max - 1` down to `min`, after which extraction stops. -/
theorem list_extract_shape {α : Type} [Inhabited α] (first second : List α) :
    (ListExtractor.extract first second).length =
      max first.length second.length ∧
    ListExtractor.extract first second =
      ((List.range (min first.length second.length)).map fun t =>
        ⟨.change, some t, some t, some (first.getD t default),
          some (second.getD t default)⟩) ++
      (if first.length < second.length then
        (List.range' first.length (second.length - first.length)).map fun t =>
          ⟨.insert, some t, some t, none, some (second.getD t default)⟩
       else
        (List.range' second.length
            (first.length - second.length)).reverse.map fun j =>
          ⟨.delete, some j, some j, some (first.getD j default), none⟩) := by
  refine ⟨?_, ListExtractor.extract_closed_form first second⟩
  rw [ListExtractor.extract_closed_form]
  by_cases h : first.length < second.length
  · simp [h]
    omega
  · simp [h]
    omega

/-- C9: a single `ListExtractor.extract` call never yields both an `insert`
and a `delete` patch; it yields exactly `len second - len first` inserts and
`len first - len second` deletes (truncated subtraction: each count is zero
unless that side is longer). -/
theorem list_extract_exclusive {α : Type} [Inhabited α]
    (first second : List α) :
    (((ListExtractor.extract first second).filter fun p =>
        decide (p.action = Action.insert)).length =
      second.length - first.length) ∧
    (((ListExtractor.extract first second).filter fun p =>
        decide (p.action = Action.delete)).length =
      first.length - second.length) ∧
    (((ListExtractor.extract first second).filter fun p =>
        decide (p.action = Action.insert)) = [] ∨
     ((ListExtractor.extract first second).filter fun p =>
        decide (p.action = Action.delete)) = []) := by
  rw [ListExtractor.extract_closed_form]
  by_cases h : first.length < second.length
  · simp [h, List.filter_append, List.filter_map, Function.comp_def]
    omega
  · simp [h, List.filter_append, List.filter_map, Function.comp_def]
    omega

/-! ## Set extractor -/

/-- C5: `SetExtractor.extract` yields at most two patches — one `insert`
carrying `second - first` exactly when that difference is non-empty, then
one `delete` carrying `first - second` exactly when that difference is
non-empty — and yields zero patches iff `first = second`. -/
theorem set_extract_spec {β : Type} [DecidableEq β] (first second : Finset β) :
    (SetExtractor.extract first second).length ≤ 2 ∧
    SetExtractor.extract first second =
      (if second \ first = ∅ then []
       else [⟨.insert, none, none, none, some (second \ first)⟩]) ++
      (if first \ second = ∅ then []
       else [⟨.delete, none, none, some (first \ second), none⟩]) ∧
    (SetExtractor.extract first second = [] ↔ first = second) := by
  refine ⟨?_, rfl, ?_⟩
  · rw [SetExtractor.extract]
    by_cases h1 : second \ first = ∅ <;> by_cases h2 : first \ second = ∅ <;>
      simp [h1, h2]
  · constructor
    · intro h
      rw [SetExtractor.extract] at h
      rcases List.append_eq_nil.mp h with ⟨ha, hd⟩
      by_cases h1 : second \ first = ∅
      · by_cases h2 : first \ second = ∅
        · exact Finset.Subset.antisymm
            (Finset.sdiff_eq_empty_iff_subset.mp h2)
            (Finset.sdiff_eq_empty_iff_subset.mp h1)
        · simp [h2] at hd
      · simp [h1] at ha
    · intro h
      subst h
      simp [SetExtractor.extract]

/-! ## Dict extractor -/

/-- `dlookup` succeeds exactly on the keys of the association list. -/
theorem dlookup_isSome_iff {κ β : Type} [DecidableEq κ] (k : κ) :
    ∀ l : List (κ × β), (dlookup k l).isSome ↔ k ∈ l.map Prod.fst := by
  intro l
  induction l with
  | nil => simp [dlookup]
  | cons kv rest ih =>
    rw [dlookup]
    by_cases hk : kv.1 = k
    · simp [hk]
    · simpa [hk, Ne.symm hk] using ih

/-- Every patch produced by `classify k` carries `k` as its old position. -/
theorem DictExtractor.classify_oldPos {κ β : Type} [DecidableEq κ]
    [ToString κ] (first second : List (κ × β)) (node : List String)
    (dottedNode : DottedNode κ) (ignore : Option (List (PathSpec κ)))
    (k : κ) (p : Patch κ β)
    (h : DictExtractor.classify first second node dottedNode ignore k
          = some p) : p.oldPos = some k := by
  unfold DictExtractor.classify at h
  split at h
  · split at h
    · cases Option.some.inj h
      rfl
    · simp at h
  · split at h
    · cases Option.some.inj h
      rfl
    · simp at h
  · split at h
    · cases Option.some.inj h
      rfl
    · simp at h
  · simp at h

/-- Filtrating the patches of a `filterMap` over a duplicate-free key list by
one key isolates that key's own classification. -/
theorem filterMap_filter_key {κ β : Type} [DecidableEq κ]
    (f : κ → Option (Patch κ β))
    (hf : ∀ k p, f k = some p → p.oldPos = some k) (k : κ) :
    ∀ ks : List κ, ks.Nodup →
    ((ks.filterMap f).filter fun p => decide (p.oldPos = some k)) =
      if k ∈ ks then (f k).toList else [] := by
  intro ks
  induction ks with
  | nil => simp
  | cons a as ih =>
    intro hnd
    rcases List.nodup_cons.mp hnd with ⟨hnotmem, hndas⟩
    rw [List.filterMap_cons]
    rcases hfa : f a with _ | p
    · rw [ih hndas]
      by_cases hak : k = a
      · subst hak
        simp [hnotmem, hfa]
      · simp [hak, Ne.symm hak]
    · rw [List.filter_cons]
      by_cases hak : k = a
      · subst hak
        have hpk : p.oldPos = some k := hf k p hfa
        rw [ih hndas, if_neg hnotmem]
        simp [hpk, hfa]
      · have hpa : p.oldPos = some a := hf a p hfa
        have : ¬ p.oldPos = some k := by
          rw [hpa]
          simp [Ne.symm hak]
        rw [if_neg (by simpa using this), ih hndas]
        simp [hak]

/-- C3: for every key of `keys(first) ∪ keys(second)` that `check` keeps,
`DictExtractor.extract` emits exactly one patch carrying that key, with
action `change` when the key is in both dicts, `delete` when only in
`first`, `insert` when only in `second`; keys rejected by `check` (in
either path convention) produce no patch. -/
theorem dict_extract_totality {κ β : Type} [DecidableEq κ] [ToString κ]
    (first second : List (κ × β)) (node : List String)
    (dottedNode : DottedNode κ) (ignore : Option (List (PathSpec κ)))
    (k : κ) :
    (DictExtractor.check node dottedNode ignore k = false →
      ((DictExtractor.extract first second node dottedNode ignore).filter
        fun p => decide (p.oldPos = some k)) = []) ∧
    (k ∈ first.map Prod.fst ∨ k ∈ second.map Prod.fst →
     DictExtractor.check node dottedNode ignore k = true →
     ∃ p : Patch κ β,
      ((DictExtractor.extract first second node dottedNode ignore).filter
        fun q => decide (q.oldPos = some k)) = [p] ∧
      p.action = (if k ∈ first.map Prod.fst then
                    (if k ∈ second.map Prod.fst then Action.change
                     else Action.delete)
                  else Action.insert)) := by
  have hkey := filterMap_filter_key
    (DictExtractor.classify first second node dottedNode ignore)
    (DictExtractor.classify_oldPos first second node dottedNode ignore) k
    ((first.map Prod.fst ++ second.map Prod.fst).dedup)
    (List.nodup_dedup _)
  rw [DictExtractor.extract]
  constructor
  · intro hchk
    rw [hkey]
    have hnone : DictExtractor.classify first second node dottedNode ignore k
        = none := by
      rw [DictExtractor.classify]
      rcases dlookup k first with _ | a <;> rcases dlookup k second with _ | b
        <;> simp [hchk]
    simp [hnone]
  · intro hmem hchk
    have hmem' : k ∈ (first.map Prod.fst ++ second.map Prod.fst).dedup := by
      rw [List.mem_dedup, List.mem_append]
      exact hmem
    rw [hkey, if_pos hmem']
    rcases h1 : dlookup k first with _ | a <;>
      rcases h2 : dlookup k second with _ | b
    · exfalso
      have n1 : ¬ k ∈ first.map Prod.fst := by
        rw [← dlookup_isSome_iff, h1]
        simp
      have n2 : ¬ k ∈ second.map Prod.fst := by
        rw [← dlookup_isSome_iff, h2]
        simp
      tauto
    · refine ⟨⟨.insert, some k, some k, none, some b⟩, ?_, ?_⟩
      · simp [DictExtractor.classify, h1, h2, hchk]
      · have n1 : ¬ k ∈ first.map Prod.fst := by
          rw [← dlookup_isSome_iff, h1]
          simp
        simp [n1]
    · refine ⟨⟨.delete, some k, some k, some a, none⟩, ?_, ?_⟩
      · simp [DictExtractor.classify, h1, h2, hchk]
      · have m1 : k ∈ first.map Prod.fst := by
          rw [← dlookup_isSome_iff, h1]
          rfl
        have n2 : ¬ k ∈ second.map Prod.fst := by
          rw [← dlookup_isSome_iff, h2]
          simp
        simp [m1, n2]
    · refine ⟨⟨.change, some k, some k, some a, some b⟩, ?_, ?_⟩
      · simp [DictExtractor.classify, h1, h2, hchk]
      · have m1 : k ∈ first.map Prod.fst := by
          rw [← dlookup_isSome_iff, h1]
          rfl
        have m2 : k ∈ second.map Prod.fst := by
          rw [← dlookup_isSome_iff, h2]
          rfl
        simp [m1, m2]

/-! ## Canonicalizer -/

/-- `_make_hashable` on a scalar: returned unchanged. -/
theorem canon_scalar (s : PyScalar) : canon (PyV.scalar s) = Canon.base s := by
  simp [canon]

/-- `_make_hashable` on a list: elementwise canonicalization into a tuple. -/
theorem canon_list (xs : List PyV) :
    canon (PyV.list xs) = Canon.tup (xs.map canon) := by
  simp [canon, List.attach_map_val]

/-- `_make_hashable` on a set: sort, canonicalize elementwise, wrap in
`SetTuple`. -/
theorem canon_set (xs : List PyV) :
    canon (PyV.set xs) = Canon.setTup ((pySort xs).map canon) := by
  simp [canon, List.attach_map_val]

/-- Comparing the `izip_longest` fill value (`None`) against a canonical
value from the left. -/
theorem canonEq_none_left (y : Canon) :
    canonEq (Canon.base .pyNone) y = y.isPyNone := by
  cases y with
  | base s => cases s <;> simp [canonEq, Canon.isPyNone]
  | tup xs => simp [canonEq, Canon.isPyNone]
  | setTup xs => simp [canonEq, Canon.isPyNone]
  | hashVal es => simp [canonEq, Canon.isPyNone]

/-- Comparing against the `izip_longest` fill value from the right. -/
theorem canonEq_none_right (x : Canon) :
    canonEq x (Canon.base .pyNone) = x.isPyNone := by
  cases x with
  | base s => cases s <;> simp [canonEq, Canon.isPyNone]
  | tup xs => simp [canonEq, Canon.isPyNone]
  | setTup xs => simp [canonEq, Canon.isPyNone]
  | hashVal es => simp [canonEq, Canon.isPyNone]

/-- Padding one more slot distributes over `cons`. -/
theorem padTo_cons (n : Nat) (x : Canon) (xs : List Canon) :
    padTo (n + 1) (x :: xs) = x :: padTo n xs := by
  simp [padTo, Nat.succ_sub_succ]

/-- `padTo` reaches the requested length. -/
theorem padTo_length (n : Nat) (xs : List Canon) (h : xs.length ≤ n) :
    (padTo n xs).length = n := by
  simp [padTo]
  omega

/-- `izip_longest` against an empty left side compares every element with the
fill value. -/
theorem canonEqPad_nil_left : ∀ ys : List Canon,
    canonEqPad [] ys =
      canonEqAll (List.replicate ys.length (Canon.base .pyNone)) ys := by
  intro ys
  induction ys with
  | nil => simp [canonEqPad, canonEqAll]
  | cons y ys ih =>
    simp [canonEqPad, canonEqAll, List.replicate_succ, canonEq_none_left, ih]

/-- `izip_longest` against an empty right side compares every element with
the fill value. -/
theorem canonEqPad_nil_right : ∀ xs : List Canon,
    canonEqPad xs [] =
      canonEqAll xs (List.replicate xs.length (Canon.base .pyNone)) := by
  intro xs
  induction xs with
  | nil => simp [canonEqPad, canonEqAll]
  | cons x xs ih =>
    simp [canonEqPad, canonEqAll, List.replicate_succ, canonEq_none_right, ih]

/-- The `izip_longest` comparison of `SetTuple.__eq__` is the elementwise
comparison of the two sequences right-padded with `None` to equal length. -/
theorem canonEqPad_eq_all : ∀ xs ys : List Canon,
    canonEqPad xs ys =
      canonEqAll (padTo (max xs.length ys.length) xs)
        (padTo (max xs.length ys.length) ys) := by
  intro xs
  induction xs with
  | nil =>
    intro ys
    rw [canonEqPad_nil_left]
    simp [padTo]
  | cons x xs ih =>
    intro ys
    cases ys with
    | nil =>
      rw [canonEqPad_nil_right]
      simp [padTo]
    | cons y ys =>
      have hmax : max (x :: xs).length (y :: ys).length =
          max xs.length ys.length + 1 := by
        simp [Nat.succ_max_succ]
      rw [hmax, padTo_cons, padTo_cons]
      simp only [canonEqPad, canonEqAll]
      rw [ih ys]

/-- C7 counterexample: the canonical projections of `{None}` and `set()`
compare equal although their sorted canonical element sequences are *not*
pairwise equal — `izip_longest` pads the shorter side with `None`, which
compares equal to the canonical `None` element. -/
theorem canon_spec_counterexample :
    canonEq (canon (PyV.set [PyV.scalar PyScalar.pyNone]))
      (canon (PyV.set [])) = true ∧
    seqPairwiseEq ((pySort [PyV.scalar PyScalar.pyNone]).map canon)
      ((pySort ([] : List PyV)).map canon) = false := by
  constructor
  · simp [canon, pySort, pyInsert, canonEq, canonEqPad, Canon.isPyNone]
  · simp [pySort, pyInsert, seqPairwiseEq, canon]

/-- C7 (amended): `_make_hashable` maps a list to the tuple of its
recursively canonicalized elements, a scalar to itself, and a set to a
`SetTuple` over the sorted, recursively canonicalized elements; two
canonicalized sets compare equal iff their sorted canonical element
sequences, right-padded with `None` to a common length, are pairwise
equal. -/
theorem canon_spec_amended :
    (∀ xs : List PyV, canon (PyV.list xs) = Canon.tup (xs.map canon)) ∧
    (∀ s : PyScalar, canon (PyV.scalar s) = Canon.base s) ∧
    (∀ xs : List PyV,
      canon (PyV.set xs) = Canon.setTup ((pySort xs).map canon)) ∧
    (∀ xs ys : List PyV,
      canonEq (canon (PyV.set xs)) (canon (PyV.set ys)) =
        seqPairwiseEq
          (padTo (max ((pySort xs).map canon).length
            ((pySort ys).map canon).length) ((pySort xs).map canon))
          (padTo (max ((pySort xs).map canon).length
            ((pySort ys).map canon).length) ((pySort ys).map canon))) := by
  refine ⟨canon_list, canon_scalar, canon_set, ?_⟩
  intro xs ys
  rw [canon_set, canon_set]
  have h1 : (padTo (max ((pySort xs).map canon).length
      ((pySort ys).map canon).length) ((pySort xs).map canon)).length =
      max ((pySort xs).map canon).length ((pySort ys).map canon).length :=
    padTo_length _ _ (le_max_left _ _)
  have h2 : (padTo (max ((pySort xs).map canon).length
      ((pySort ys).map canon).length) ((pySort ys).map canon)).length =
      max ((pySort xs).map canon).length ((pySort ys).map canon).length :=
    padTo_length _ _ (le_max_right _ _)
  calc canonEq (Canon.setTup ((pySort xs).map canon))
        (Canon.setTup ((pySort ys).map canon))
      = canonEqPad ((pySort xs).map canon) ((pySort ys).map canon) := by
        simp [canonEq]
    _ = canonEqAll
          (padTo (max ((pySort xs).map canon).length
            ((pySort ys).map canon).length) ((pySort xs).map canon))
          (padTo (max ((pySort xs).map canon).length
            ((pySort ys).map canon).length) ((pySort ys).map canon)) :=
        canonEqPad_eq_all _ _
    _ = _ := by
        rw [seqPairwiseEq, h1, h2]
        simp

/-- C10: the canonical projection of a set (`SetTuple`) never compares equal
to the canonical projection of a list (a plain tuple), in either direction,
even for identical element sequences: `SetTuple.__eq__` requires the exact
projection type. -/
theorem canon_set_never_eq_list (xs ys : List PyV) :
    canonEq (canon (PyV.set xs)) (canon (PyV.list ys)) = false ∧
    canonEq (canon (PyV.list ys)) (canon (PyV.set xs)) = false := by
  rw [canon_set, canon_list]
  constructor <;> simp [canonEq]

/-! ## Patch invariant (C6) -/

/-- Every patch emitted by `classify` satisfies the patch invariant. -/
theorem DictExtractor.classify_wf {κ β : Type} [DecidableEq κ]
    [ToString κ] (first second : List (κ × β)) (node : List String)
    (dottedNode : DottedNode κ) (ignore : Option (List (PathSpec κ)))
    (k : κ) (p : Patch κ β)
    (h : DictExtractor.classify first second node dottedNode ignore k
          = some p) : p.wf = true := by
  unfold DictExtractor.classify at h
  split at h
  · split at h
    · cases Option.some.inj h
      rfl
    · simp at h
  · split at h
    · cases Option.some.inj h
      rfl
    · simp at h
  · split at h
    · cases Option.some.inj h
      rfl
    · simp at h
  · simp at h

/-- Every patch emitted by the sequence-extractor loop satisfies the patch
invariant, for any opcode list and counter values. -/
theorem SequenceExtractor.go_wf {α : Type} [Inhabited α]
    (first second : List α) :
    ∀ (ops : List Opcode) (ins del : Nat),
    (SequenceExtractor.go first second ops ins del).all Patch.wf = true := by
  intro ops
  induction ops with
  | nil => intro ins del; rfl
  | cons op rest ih =>
    intro ins del
    rcases op with ⟨tag, i1, i2, j1, j2⟩
    cases tag
    · exact ih ins del
    · simp only [SequenceExtractor.go, List.all_append, Bool.and_eq_true]
      refine ⟨?_, ih _ _⟩
      rw [List.all_eq_true]
      intro p hp
      rcases List.mem_map.mp hp with ⟨t, _, rfl⟩
      rfl
    · simp only [SequenceExtractor.go, List.all_append, Bool.and_eq_true]
      refine ⟨?_, ih _ _⟩
      rw [List.all_eq_true]
      intro p hp
      rcases List.mem_map.mp hp with ⟨t, _, rfl⟩
      rfl
    · simp only [SequenceExtractor.go, List.all_append, Bool.and_eq_true]
      refine ⟨?_, ?_⟩
      · rw [List.all_eq_true]
        intro p hp
        rcases List.mem_map.mp hp with ⟨t, _, rfl⟩
        rfl
      · split
        · simp only [List.all_append, Bool.and_eq_true]
          refine ⟨?_, ih _ _⟩
          rw [List.all_eq_true]
          intro p hp
          rcases List.mem_map.mp hp with ⟨t, _, rfl⟩
          rfl
        · split
          · simp only [List.all_append, Bool.and_eq_true]
            refine ⟨?_, ih _ _⟩
            rw [List.all_eq_true]
            intro p hp
            rcases List.mem_map.mp hp with ⟨t, _, rfl⟩
            rfl
          · exact ih _ _

/-- C6: every patch yielded by any of the four extractors satisfies exactly
one of the spec §3 invariant disjuncts: `insert` with `old_value` absent,
`delete` with `new_value` absent, or `change` with both values present. -/
theorem patch_invariant :
    (∀ (κ β : Type) (_ : DecidableEq κ) (_ : ToString κ)
      (first second : List (κ × β)) (node : List String)
      (dottedNode : DottedNode κ) (ignore : Option (List (PathSpec κ))),
      (DictExtractor.extract first second node dottedNode ignore).all
        Patch.wf = true) ∧
    (∀ (α : Type) (_ : Inhabited α) (first second : List α),
      (ListExtractor.extract first second).all Patch.wf = true) ∧
    (∀ (β : Type) (_ : DecidableEq β) (first second : Finset β),
      (SetExtractor.extract first second).all Patch.wf = true) ∧
    (∀ (α : Type) (_ : Inhabited α) (first second : List α)
      (ops : List Opcode),
      (SequenceExtractor.extract first second ops).all Patch.wf = true) := by
  refine ⟨?_, ?_, ?_, ?_⟩
  · intro κ β _ _ first second node dottedNode ignore
    rw [List.all_eq_true]
    intro p hp
    rcases List.mem_filterMap.mp hp with ⟨k, _, hk⟩
    exact DictExtractor.classify_wf first second node dottedNode ignore k p hk
  · intro α _ first second
    rw [List.all_eq_true]
    intro p hp
    rw [ListExtractor.extract_closed_form] at hp
    rcases List.mem_append.mp hp with h | h
    · rcases List.mem_map.mp h with ⟨t, _, rfl⟩
      rfl
    · split at h
      · rcases List.mem_map.mp h with ⟨t, _, rfl⟩
        rfl
      · rcases List.mem_map.mp h with ⟨t, _, rfl⟩
        rfl
  · intro β _ first second
    rw [SetExtractor.extract]
    by_cases h1 : second \ first = ∅ <;> by_cases h2 : first \ second = ∅ <;>
      simp [h1, h2, Patch.wf, Patch.condIns, Patch.condDel, Patch.condChg]
  · intro α _ first second ops
    exact SequenceExtractor.go_wf first second ops 0 0

/-! ## Idempotence (C2) -/

/-- C2 counterexample: `DictExtractor.extract` on the identical pair
`{'a': 1}` yields a patch (the `change` patch for the shared key), not zero
patches. -/
theorem extract_idempotent_counterexample :
    DictExtractor.extract [("a", 1)] [("a", 1)] []
      (DottedNode.strForm "") none ≠ ([] : List (Patch String Nat)) := by
  decide

/-- On an all-`equal` opcode list the sequence-extractor loop emits
nothing. -/
theorem SequenceExtractor.go_all_equal {α : Type} [Inhabited α]
    (first second : List α) :
    ∀ (ops : List Opcode) (ins del : Nat),
    (∀ op ∈ ops, op.tag = OpTag.equal) →
    SequenceExtractor.go first second ops ins del = [] := by
  intro ops
  induction ops with
  | nil => intro ins del _; simp [SequenceExtractor.go]
  | cons op rest ih =>
    intro ins del hall
    have htag : op.tag = OpTag.equal := hall op (List.mem_cons_self op rest)
    rcases op with ⟨tag, i1, i2, j1, j2⟩
    cases htag
    simp only [SequenceExtractor.go]
    exact ih ins del fun o ho => hall o (List.mem_cons_of_mem _ ho)

/-- C2 (amended): `extract(x, x)` yields zero patches for `SetExtractor`,
and for `SequenceExtractor` whenever the external matcher reports identical
inputs (an all-`equal` opcode list); `DictExtractor` and `ListExtractor`
instead yield one `change` patch with equal old and new values per
(non-ignored) shared key or index, and no `insert` or `delete` patches. -/
theorem extract_idempotent_amended :
    (∀ (β : Type) (_ : DecidableEq β) (s : Finset β),
      SetExtractor.extract s s = []) ∧
    (∀ (α : Type) (_ : Inhabited α) (x : List α) (ops : List Opcode),
      (∀ op ∈ ops, op.tag = OpTag.equal) →
      SequenceExtractor.extract x x ops = []) ∧
    (∀ (κ β : Type) (_ : DecidableEq κ) (_ : ToString κ)
      (x : List (κ × β)) (node : List String) (dottedNode : DottedNode κ)
      (ignore : Option (List (PathSpec κ))),
      (∀ p ∈ DictExtractor.extract x x node dottedNode ignore,
        p.action = Action.change ∧ p.oldVal = p.newVal) ∧
      (∀ k ∈ x.map Prod.fst,
        DictExtractor.check node dottedNode ignore k = true →
        ∃ v : β, dlookup k x = some v ∧
          ((DictExtractor.extract x x node dottedNode ignore).filter
            fun q => decide (q.oldPos = some k)) =
            [⟨Action.change, some k, some k, some v, some v⟩])) ∧
    (∀ (α : Type) (_ : Inhabited α) (x : List α),
      ListExtractor.extract x x = (List.range x.length).map fun t =>
        ⟨.change, some t, some t, some (x.getD t default),
          some (x.getD t default)⟩) := by
  refine ⟨?_, ?_, ?_, ?_⟩
  · intro β _ s
    simp [SetExtractor.extract]
  · intro α _ x ops hall
    exact SequenceExtractor.go_all_equal x x ops 0 0 hall
  · intro κ β _ _ x node dottedNode ignore
    constructor
    · intro p hp
      rcases List.mem_filterMap.mp hp with ⟨k, _, hk⟩
      unfold DictExtractor.classify at hk
      rcases hlk : dlookup k x with _ | a <;> rw [hlk] at hk <;>
        dsimp only at hk
      · simp at hk
      · split at hk
        · cases Option.some.inj hk
          exact ⟨rfl, rfl⟩
        · simp at hk
    · intro k hkmem hchk
      have hsome : (dlookup k x).isSome = true :=
        (dlookup_isSome_iff k x).mpr hkmem
      rcases hvx : dlookup k x with _ | v
      · rw [hvx] at hsome
        simp at hsome
      · refine ⟨v, rfl, ?_⟩
        have hkey := filterMap_filter_key
          (DictExtractor.classify x x node dottedNode ignore)
          (DictExtractor.classify_oldPos x x node dottedNode ignore) k
          ((x.map Prod.fst ++ x.map Prod.fst).dedup)
          (List.nodup_dedup _)
        rw [DictExtractor.extract, hkey,
          if_pos (by rw [List.mem_dedup, List.mem_append]; exact Or.inl hkmem)]
        simp [DictExtractor.classify, hvx, hchk]
  · intro α _ x
    rw [ListExtractor.extract_closed_form]
    simp

/-! ## Registry (C8) -/

/-- `dlookup` on an append tries the left list first. -/
theorem dlookup_append {κ β : Type} [DecidableEq κ] (k : κ) :
    ∀ l1 l2 : List (κ × β), dlookup k (l1 ++ l2) =
      match dlookup k l1 with
      | some v => some v
      | none => dlookup k l2 := by
  intro l1 l2
  induction l1 with
  | nil => rfl
  | cons kv rest ih =>
    rcases kv with ⟨k', v⟩
    rw [List.cons_append, dlookup, dlookup]
    split
    · rfl
    · exact ih

/-- `dlookup` through a key-preserving value map. -/
theorem dlookup_mapValues {κ β : Type} [DecidableEq κ] (g : κ → β → β)
    (k : κ) : ∀ l : List (κ × β),
    dlookup k (l.map fun kv => (kv.1, g kv.1 kv.2)) =
      (dlookup k l).map (g k) := by
  intro l
  induction l with
  | nil => rfl
  | cons kv rest ih =>
    rcases kv with ⟨k', v⟩
    rw [List.map_cons, dlookup, dlookup]
    by_cases hk : k' = k
    · subst hk
      simp
    · simp only [if_neg hk]
      exact ih

/-- `dlookup` through a filter whose predicate depends only on the key. -/
theorem dlookup_filter_byKey {κ β : Type} [DecidableEq κ] (q : κ → Bool)
    (k : κ) : ∀ l : List (κ × β),
    dlookup k (l.filter fun kv => q kv.1) =
      if q k then dlookup k l else none := by
  intro l
  induction l with
  | nil => simp [dlookup]
  | cons kv rest ih =>
    rcases kv with ⟨k', v⟩
    rw [List.filter_cons]
    by_cases hk : k' = k
    · subst hk
      cases hq : q k' <;> simp [hq, dlookup, ih]
    · cases hq : q k' <;> simp [hq, dlookup, hk, ih]

/-- The lookup behaviour of Python `dict.update`: an updated key yields the
update's value, an untouched key keeps the base's value. -/
theorem dlookup_dictUpdate {κ β : Type} [DecidableEq κ]
    (base upd : List (κ × β)) (k : κ) :
    dlookup k (dictUpdate base upd) =
      match dlookup k base with
      | some w => some ((dlookup k upd).getD w)
      | none => dlookup k upd := by
  rw [dictUpdate, dlookup_append,
    dlookup_mapValues (fun a v => (dlookup a upd).getD v) k base,
    dlookup_filter_byKey (fun a => (dlookup a base).isNone) k upd]
  cases dlookup k base <;> simp

/-- C8: a fresh registry holds exactly the default mapping
`{dict: DictExtractor, list: ListExtractor, set: SetExtractor,
'default': [DictExtractor, ListExtractor, SetExtractor]}` (also the value of
`get_default_extractors`); a caller-supplied non-empty `extractor_update`
replaces exactly the entries it mentions and keeps the rest; and an absent
`path_limit` defaults to the no-limit value. -/
theorem registry_init_spec {ι : Type} :
    (∀ (ignore : Option ι) (tryDefault expand : Bool)
      (pathLimit : Option PathLimit),
      (Extractor.init none ignore tryDefault expand pathLimit).extractors =
        [(.keyDict, .single .dictE), (.keyList, .single .listE),
         (.keySet, .single .setE),
         (.keyDefault, .chain [.dictE, .listE, .setE])] ∧
      (Extractor.init none ignore tryDefault expand pathLimit).extractors =
        get_default_extractors) ∧
    (∀ (upd : List (ExtKey × ExtEntry)) (ignore : Option ι)
      (tryDefault expand : Bool) (pathLimit : Option PathLimit)
      (k : ExtKey) (v : ExtEntry),
      upd ≠ [] → dlookup k upd = some v →
      dlookup k
        (Extractor.init (some upd) ignore tryDefault expand
          pathLimit).extractors = some v) ∧
    (∀ (upd : List (ExtKey × ExtEntry)) (ignore : Option ι)
      (tryDefault expand : Bool) (pathLimit : Option PathLimit) (k : ExtKey),
      upd ≠ [] → dlookup k upd = none →
      dlookup k
        (Extractor.init (some upd) ignore tryDefault expand
          pathLimit).extractors = dlookup k defaultExtractorTable) ∧
    (∀ (extractorUpdate : Option (List (ExtKey × ExtEntry)))
      (ignore : Option ι) (tryDefault expand : Bool),
      (Extractor.init extractorUpdate ignore tryDefault expand
        none).pathLimit = PathLimit.unlimited) := by
  have hinit : ∀ (upd : List (ExtKey × ExtEntry)) (ignore : Option ι)
      (tryDefault expand : Bool) (pathLimit : Option PathLimit),
      upd ≠ [] →
      (Extractor.init (some upd) ignore tryDefault expand
        pathLimit).extractors = dictUpdate defaultExtractorTable upd := by
    intro upd ignore td ex pl hne
    cases upd with
    | nil => exact absurd rfl hne
    | cons u us => rfl
  refine ⟨?_, ?_, ?_, ?_⟩
  · intro ignore td ex pl
    exact ⟨rfl, rfl⟩
  · intro upd ignore td ex pl k v hne hv
    rw [hinit upd ignore td ex pl hne, dlookup_dictUpdate]
    cases dlookup k defaultExtractorTable <;> simp [hv]
  · intro upd ignore td ex pl k hne hv
    rw [hinit upd ignore td ex pl hne, dlookup_dictUpdate]
    cases dlookup k defaultExtractorTable <;> simp [hv]
  · intro eu ignore td ex
    cases eu <;> rfl

/-! ## Sequence extractor replay (C1) -/

/-- Replay unfolds one patch at a time. -/
theorem replay_cons {α : Type} (l : List α) (p : Patch Int α)
    (ps : List (Patch Int α)) :
    replay l (p :: ps) = (applyPatch l p).bind fun l' => replay l' ps := rfl

/-- Replay over an append is sequential composition. -/
theorem replay_append {α : Type} (l : List α) (ps qs : List (Patch Int α)) :
    replay l (ps ++ qs) = (replay l ps).bind fun l' => replay l' qs := by
  induction ps generalizing l with
  | nil => rfl
  | cons p ps ih =>
    rw [List.cons_append, replay_cons, replay_cons]
    cases applyPatch l p with
    | none => rfl
    | some l' => exact ih l'

/-- Inserting at the length of the left part lands between the parts. -/
theorem insertIdx_length_append {α : Type} (l1 l2 : List α) (v : α) :
    (l1 ++ l2).insertIdx l1.length v = l1 ++ v :: l2 := by
  induction l1 with
  | nil => rfl
  | cons a rest ih =>
    rw [List.cons_append, List.length_cons, List.insertIdx_succ_cons, ih]
    rfl

/-- Erasing past the left part erases inside the right part. -/
theorem eraseIdx_length_append {α : Type} (l1 l2 : List α) (k : Nat) :
    (l1 ++ l2).eraseIdx (l1.length + k) = l1 ++ l2.eraseIdx k := by
  induction l1 with
  | nil => simp
  | cons a rest ih =>
    rw [List.cons_append, List.length_cons]
    have : rest.length + 1 + k = rest.length + k + 1 := by omega
    rw [this, List.eraseIdx_cons_succ, ih]
    rfl

/-- Setting past the left part sets inside the right part. -/
theorem set_length_append {α : Type} (l1 l2 : List α) (k : Nat) (v : α) :
    (l1 ++ l2).set (l1.length + k) v = l1 ++ l2.set k v := by
  rw [List.set_append, if_neg (by omega)]
  congr 2
  omega

/-- An in-bounds `getD` is plain indexing. -/
theorem getD_eq_getElem {α : Type} [Inhabited α] (b : List α) (j : Nat)
    (h : j < b.length) : b.getD j default = b[j] := by
  rw [List.getD_eq_getElem?_getD, List.getElem?_eq_getElem h]
  rfl

/-- Extending a prefix by the next element. -/
theorem take_succ_append {α : Type} (b : List α) (j : Nat) (h : j < b.length)
    (rest : List α) :
    b.take j ++ b[j] :: rest = b.take (j + 1) ++ rest := by
  rw [List.take_succ, List.getElem?_eq_getElem h, List.append_assoc]
  rfl

/-- Inserting at the boundary of a `take`-prefix. -/
theorem insertIdx_take_append {α : Type} (b : List α) (j : Nat)
    (h : j ≤ b.length) (v : α) (rest : List α) :
    (b.take j ++ rest).insertIdx j v = b.take j ++ v :: rest := by
  have hlen : (b.take j).length = j := by
    rw [List.length_take]
    omega
  calc (b.take j ++ rest).insertIdx j v
      = (b.take j ++ rest).insertIdx (b.take j).length v := by rw [hlen]
    _ = b.take j ++ v :: rest := insertIdx_length_append _ _ _

/-- Replaying a run of `insert` patches at ascending positions `j`,
`j + 1`, … copies `b`'s elements `b[j]`, … in front of `rest`. -/
theorem replay_inserts {α : Type} [Inhabited α] (b : List α) :
    ∀ (n : Nat) (np : Nat → Option Int) (j : Nat) (rest : List α),
    j + n ≤ b.length →
    replay (b.take j ++ rest)
      ((List.range n).map fun t =>
        (⟨.insert, some ((j + t : Nat) : Int), np t, none,
          some (b.getD (j + t) default)⟩ : Patch Int α)) =
      some (b.take (j + n) ++ rest) := by
  intro n
  induction n with
  | zero => intro np j rest _; simp [replay]
  | succ n ih =>
    intro np j rest h
    have hjb : j < b.length := by omega
    rw [List.range_succ_eq_map, List.map_cons, List.map_map, replay_cons]
    have happ : applyPatch (b.take j ++ rest)
        (⟨.insert, some ((j + 0 : Nat) : Int), np 0, none,
          some (b.getD (j + 0) default)⟩ : Patch Int α) =
        some (b.take (j + 1) ++ rest) := by
      simp only [applyPatch, Nat.add_zero]
      rw [if_pos]
      · rw [Int.toNat_natCast, insertIdx_take_append b j (le_of_lt hjb),
          getD_eq_getElem b j hjb, take_succ_append b j hjb]
      · constructor
        · exact Int.natCast_nonneg j
        · rw [Int.toNat_natCast, List.length_append, List.length_take]
          omega
    rw [happ]
    have hshift : ∀ t : Nat, j + (t + 1) = j + 1 + t := by omega
    have hfun : ((fun t => (⟨.insert, some ((j + t : Nat) : Int), np t, none,
          some (b.getD (j + t) default)⟩ : Patch Int α)) ∘ Nat.succ) =
        fun t => (⟨.insert, some ((j + 1 + t : Nat) : Int), (np ∘ Nat.succ) t,
          none, some (b.getD (j + 1 + t) default)⟩ : Patch Int α) := by
      funext t
      have ht : j + (t + 1) = j + 1 + t := by omega
      simp only [Function.comp_apply, Nat.succ_eq_add_one, ht]
    rw [hfun]
    have := ih (np ∘ Nat.succ) (j + 1) rest (by omega)
    rw [show j + 1 + n = j + (n + 1) by omega] at this
    exact this

/-- Setting at the boundary of a `take`-prefix. -/
theorem set_take_append {α : Type} (b : List α) (j : Nat) (h : j ≤ b.length)
    (v : α) (l2 : List α) :
    (b.take j ++ l2).set j v = b.take j ++ l2.set 0 v := by
  have hlen : (b.take j).length = j := by
    rw [List.length_take]
    omega
  calc (b.take j ++ l2).set j v
      = (b.take j ++ l2).set ((b.take j).length + 0) v := by
        rw [hlen, Nat.add_zero]
    _ = b.take j ++ l2.set 0 v := set_length_append _ _ _ _

/-- Replaying a run of `change` patches at ascending positions rewrites the
front of the `a`-suffix into `b`'s elements. -/
theorem replay_changes {α : Type} [Inhabited α] (a b : List α) :
    ∀ (c : Nat) (np : Nat → Option Int) (ov : Nat → Option α) (i j : Nat),
    i + c ≤ a.length → j + c ≤ b.length →
    replay (b.take j ++ a.drop i)
      ((List.range c).map fun t =>
        (⟨.change, some ((j + t : Nat) : Int), np t, ov t,
          some (b.getD (j + t) default)⟩ : Patch Int α)) =
      some (b.take (j + c) ++ a.drop (i + c)) := by
  intro c
  induction c with
  | zero => intro np ov i j _ _; simp [replay]
  | succ c ih =>
    intro np ov i j hi hj
    have hia : i < a.length := by omega
    have hjb : j < b.length := by omega
    rw [List.range_succ_eq_map, List.map_cons, List.map_map, replay_cons]
    have happ : applyPatch (b.take j ++ a.drop i)
        (⟨.change, some ((j + 0 : Nat) : Int), np 0, ov 0,
          some (b.getD (j + 0) default)⟩ : Patch Int α) =
        some (b.take (j + 1) ++ a.drop (i + 1)) := by
      simp only [applyPatch, Nat.add_zero]
      rw [if_pos]
      · rw [Int.toNat_natCast, set_take_append b j (le_of_lt hjb),
          List.drop_eq_getElem_cons hia, List.set_cons_zero,
          getD_eq_getElem b j hjb, take_succ_append b j hjb]
      · constructor
        · exact Int.natCast_nonneg j
        · rw [Int.toNat_natCast, List.length_append, List.length_take,
            List.length_drop]
          omega
    rw [happ]
    have hfun : ((fun t => (⟨.change, some ((j + t : Nat) : Int), np t, ov t,
          some (b.getD (j + t) default)⟩ : Patch Int α)) ∘ Nat.succ) =
        fun t => (⟨.change, some ((j + 1 + t : Nat) : Int),
          (np ∘ Nat.succ) t, (ov ∘ Nat.succ) t,
          some (b.getD (j + 1 + t) default)⟩ : Patch Int α) := by
      funext t
      have ht : j + (t + 1) = j + 1 + t := by omega
      simp only [Function.comp_apply, Nat.succ_eq_add_one, ht]
    rw [hfun]
    have := ih (np ∘ Nat.succ) (ov ∘ Nat.succ) (i + 1) (j + 1)
      (by omega) (by omega)
    rw [show j + 1 + c = j + (c + 1) by omega,
      show i + 1 + c = i + (c + 1) by omega] at this
    exact this

/-- Replaying a run of `delete` patches at strictly descending positions
removes the middle block; descending order keeps every position valid. -/
theorem replay_deletes {α : Type} (pre : List α) :
    ∀ (m : Nat) (np : Nat → Option Int) (ov : Nat → Option α) (q : Nat)
      (mid rest : List α), mid.length = m → pre.length = q →
    replay (pre ++ (mid ++ rest))
      ((List.range m).reverse.map fun t =>
        (⟨.delete, some ((q + t : Nat) : Int), np t, ov t,
          none⟩ : Patch Int α)) =
      some (pre ++ rest) := by
  intro m
  induction m with
  | zero =>
    intro np ov q mid rest hmid hq
    have : mid = [] := List.eq_nil_of_length_eq_zero hmid
    subst this
    simp [replay]
  | succ m ih =>
    intro np ov q mid rest hmid hq
    subst hq
    have hne : mid ≠ [] := by
      intro h
      subst h
      simp at hmid
    obtain ⟨md, x, rfl⟩ : ∃ md x, mid = md ++ [x] :=
      ⟨mid.dropLast, mid.getLast hne, (List.dropLast_append_getLast hne).symm⟩
    have hmd : md.length = m := by
      rw [List.length_append, List.length_singleton] at hmid
      omega
    have hrev : (List.range (m + 1)).reverse = m :: (List.range m).reverse := by
      rw [List.range_succ, List.reverse_append]
      rfl
    rw [hrev, List.map_cons, replay_cons]
    have happ : applyPatch (pre ++ ((md ++ [x]) ++ rest))
        (⟨.delete, some ((pre.length + m : Nat) : Int), np m, ov m,
          none⟩ : Patch Int α) = some (pre ++ (md ++ rest)) := by
      simp only [applyPatch]
      rw [if_pos]
      · rw [Int.toNat_natCast, eraseIdx_length_append]
        congr 1
        rw [List.append_assoc, ← hmd,
          show md.length = md.length + 0 by omega, eraseIdx_length_append]
        rfl
      · constructor
        · exact Int.natCast_nonneg _
        · rw [Int.toNat_natCast]
          simp only [List.length_append, List.length_singleton, hmd]
          omega
    rw [happ]
    exact ih np ov pre.length md rest hmd rfl

/-- Splitting a suffix at an interior point. -/
theorem drop_split {α : Type} (a : List α) (i k : Nat) :
    a.drop i = (a.drop i).take k ++ a.drop (i + k) := by
  have h1 : (a.drop i).drop k = a.drop (i + k) := by
    rw [List.drop_drop]
  rw [← h1, List.take_append_drop]

/-- An `equal` opcode lets the replay frontier advance: when the slices
match, the mixed list re-expresses itself at the opcode's end positions. -/
theorem slices_shift {α : Type} (a b : List α) (i i2 j j2 : Nat)
    (hlen : i2 - i = j2 - j) (hi : i ≤ i2) (hj : j ≤ j2)
    (hs : (a.drop i).take (i2 - i) = (b.drop j).take (j2 - j)) :
    b.take j ++ a.drop i = b.take j2 ++ a.drop i2 := by
  have hadecomp := drop_split a i (i2 - i)
  rw [show i + (i2 - i) = i2 by omega] at hadecomp
  rw [hadecomp, hs, ← List.append_assoc]
  congr 1
  rw [show j2 = j + (j2 - j) by omega, List.take_add]
  simp [Nat.add_sub_cancel_left]

/-- Replay invariant of the opcode-translation loop: if the remaining
opcodes validly cover `(a, b)` from `(i, j)` on and the counters satisfy
`ins - del = j - i`, replaying the emitted patches over
`b.take j ++ a.drop i` produces exactly `b`. -/
theorem seqGo_replay {α : Type} [DecidableEq α] [Inhabited α] (a b : List α) :
    ∀ (ops : List Opcode) (i j ins del : Nat),
    validFrom a b i j ops = true →
    (ins : Int) - (del : Int) = (j : Int) - (i : Int) →
    replay (b.take j ++ a.drop i) (SequenceExtractor.go a b ops ins del) =
      some b := by
  intro ops
  induction ops with
  | nil =>
    intro i j ins del hv _
    simp only [validFrom, Bool.and_eq_true, decide_eq_true_eq] at hv
    obtain ⟨hi, hj⟩ := hv
    subst hi
    subst hj
    simp [SequenceExtractor.go, replay]
  | cons op rest ih =>
    intro i j ins del hv hij
    rcases op with ⟨tag, i1, i2, j1, j2⟩
    cases tag
    case equal =>
      simp only [validFrom, Bool.and_eq_true, decide_eq_true_eq] at hv
      obtain ⟨⟨⟨⟨⟨rfl, rfl⟩, h3⟩, h4⟩, ⟨⟨hlt, hlen⟩, hs⟩⟩, hV⟩ := hv
      have hgo : SequenceExtractor.go a b
          (⟨OpTag.equal, i1, i2, j1, j2⟩ :: rest) ins del =
          SequenceExtractor.go a b rest ins del := rfl
      rw [hgo,
        slices_shift a b i1 i2 j1 j2 hlen (by omega) (by omega) hs]
      exact ih i2 j2 ins del hV (by omega)
    case insert =>
      simp only [validFrom, Bool.and_eq_true, decide_eq_true_eq] at hv
      obtain ⟨⟨⟨⟨⟨rfl, rfl⟩, h3⟩, h4⟩, ⟨heq, hjlt⟩⟩, hV⟩ := hv
      simp only [SequenceExtractor.go]
      have hpos : ∀ t : Nat,
          ((i1 : Int) + (t : Int) + (ins : Int) - (del : Int)) =
          ((j1 + t : Nat) : Int) := by
        intro t
        omega
      simp only [hpos]
      rw [replay_append,
        replay_inserts b (j2 - j1) (fun t => some ((j1 + t : Nat) : Int))
          j1 (a.drop i1) (by omega)]
      rw [Option.some_bind, show j1 + (j2 - j1) = j2 by omega]
      rw [show i1 = i2 from heq] at hij ⊢
      exact ih i2 j2 (ins + (j2 - j1)) del hV (by omega)
    case delete =>
      simp only [validFrom, Bool.and_eq_true, decide_eq_true_eq] at hv
      obtain ⟨⟨⟨⟨⟨rfl, rfl⟩, h3⟩, h4⟩, ⟨heq, hilt⟩⟩, hV⟩ := hv
      simp only [SequenceExtractor.go]
      have hpos : ∀ t : Nat,
          (((i1 + t : Nat) : Int) - (del : Int) + (ins : Int)) =
          ((j1 + t : Nat) : Int) := by
        intro t
        omega
      simp only [hpos]
      rw [replay_append]
      have hdecomp := drop_split a i1 (i2 - i1)
      rw [show i1 + (i2 - i1) = i2 by omega] at hdecomp
      rw [hdecomp,
        replay_deletes (b.take j1) (i2 - i1)
          (fun t => some ((j1 + t : Nat) : Int))
          (fun t => some (a.getD (i1 + t) default)) j1
          ((a.drop i1).take (i2 - i1)) (a.drop i2)
          (by rw [List.length_take, List.length_drop]; omega)
          (by rw [List.length_take]; omega),
        Option.some_bind]
      rw [show j1 = j2 from heq] at hij ⊢
      exact ih i2 j2 ins (del + (i2 - i1)) hV (by omega)
    case replace =>
      simp only [validFrom, Bool.and_eq_true, decide_eq_true_eq] at hv
      obtain ⟨⟨⟨⟨⟨rfl, rfl⟩, h3⟩, h4⟩, ⟨hilt, hjlt⟩⟩, hV⟩ := hv
      simp only [SequenceExtractor.go]
      have hposc : ∀ t : Nat,
          (((i1 + t : Nat) : Int) + (ins : Int) - (del : Int)) =
          ((j1 + t : Nat) : Int) := by
        intro t
        omega
      simp only [hposc]
      rw [replay_append,
        replay_changes a b ((i2 - i1) ⊓ (j2 - j1))
          (fun t => some ((j1 + t : Nat) : Int))
          (fun t => some (a.getD (i1 + t) default)) i1 j1
          (by omega) (by omega),
        Option.some_bind]
      rcases Nat.lt_trichotomy (i2 - i1) (j2 - j1) with hmn | hmn | hmn
      · rw [if_pos hmn]
        have hposi : ∀ k : Nat,
            ((((i1 + (i2 - i1) ⊓ (j2 - j1) - 1 : Nat)) : Int) + (ins : Int)
              - (del : Int) + 1 + (k : Int)) =
            ((j1 + (i2 - i1) ⊓ (j2 - j1) + k : Nat) : Int) := by
          intro k
          omega
        simp only [hposi]
        rw [replay_append,
          replay_inserts b (j2 - j1 - (i2 - i1) ⊓ (j2 - j1))
            (fun k => some ((j1 + (i2 - i1) ⊓ (j2 - j1) + k : Nat) : Int))
            (j1 + (i2 - i1) ⊓ (j2 - j1))
            (a.drop (i1 + (i2 - i1) ⊓ (j2 - j1))) (by omega),
          Option.some_bind,
          show j1 + (i2 - i1) ⊓ (j2 - j1) +
            (j2 - j1 - (i2 - i1) ⊓ (j2 - j1)) = j2 by omega,
          show i1 + (i2 - i1) ⊓ (j2 - j1) = i2 by omega]
        exact ih i2 j2 (ins + (j2 - j1 - (i2 - i1) ⊓ (j2 - j1))) del hV
          (by omega)
      · rw [if_neg (by omega), if_neg (by omega),
          show i1 + (i2 - i1) ⊓ (j2 - j1) = i2 by omega,
          show j1 + (i2 - i1) ⊓ (j2 - j1) = j2 by omega]
        exact ih i2 j2 ins del hV (by omega)
      · rw [if_neg (by omega), if_pos hmn]
        have hposd : ∀ k : Nat,
            (((i1 + (i2 - i1) ⊓ (j2 - j1) + k : Nat) : Int) + (ins : Int)
              - (del : Int)) =
            ((j1 + (i2 - i1) ⊓ (j2 - j1) + k : Nat) : Int) := by
          intro k
          omega
        simp only [hposd]
        have hdecomp := drop_split a (i1 + (i2 - i1) ⊓ (j2 - j1))
          (i2 - i1 - (i2 - i1) ⊓ (j2 - j1))
        rw [show i1 + (i2 - i1) ⊓ (j2 - j1) +
          (i2 - i1 - (i2 - i1) ⊓ (j2 - j1)) = i2 by omega] at hdecomp
        rw [hdecomp, replay_append,
          replay_deletes (b.take (j1 + (i2 - i1) ⊓ (j2 - j1)))
            (i2 - i1 - (i2 - i1) ⊓ (j2 - j1))
            (fun k => some ((j1 + (i2 - i1) ⊓ (j2 - j1) + k : Nat) : Int))
            (fun k => some (a.getD (i1 + (i2 - i1) ⊓ (j2 - j1) + k) default))
            (j1 + (i2 - i1) ⊓ (j2 - j1))
            ((a.drop (i1 + (i2 - i1) ⊓ (j2 - j1))).take
              (i2 - i1 - (i2 - i1) ⊓ (j2 - j1)))
            (a.drop i2)
            (by rw [List.length_take, List.length_drop]; omega)
            (by rw [List.length_take]; omega),
          Option.some_bind,
          show j1 + (i2 - i1) ⊓ (j2 - j1) = j2 by omega]
        exact ih i2 j2 ins (del + (i2 - i1 - (i2 - i1) ⊓ (j2 - j1))) hV
          (by omega)

/-- C1: applying the patches yielded by `SequenceExtractor.extract` strictly
in emission order to a mutable copy of `first` — inserting at
`old_position`, deleting at `old_position`, replacing at `old_position` —
yields exactly `second`, for every opcode list satisfying the LCS
generator's contract (including interleaved insert, delete and replace
opcodes of unequal-length runs); every position is in range when applied. -/
theorem sequence_extract_replay {α : Type} [DecidableEq α] [Inhabited α]
    (first second : List α) (ops : List Opcode)
    (hv : validOps first second ops = true) :
    replay first (SequenceExtractor.extract first second ops) =
      some second := by
  have h := seqGo_replay first second ops 0 0 0 0 hv (by norm_num)
  simpa [SequenceExtractor.extract] using h

/-- Witness for C2 (amended): a concrete identical sequence pair with its
all-`equal` opcode list, and — on the identical pair `{'a': 1}` — the
exactly-one equal-valued `change` patch that `DictExtractor` emits for the
shared key `a`. -/
theorem extract_idempotent_amended_witness :
    SequenceExtractor.extract [1, 2] [1, 2] [⟨OpTag.equal, 0, 2, 0, 2⟩] =
      ([] : List (Patch Int Nat)) ∧
    ((DictExtractor.extract [("a", 1)] [("a", 1)] []
        (DottedNode.strForm "") none).filter
      fun q => decide (q.oldPos = some "a")) =
      [⟨Action.change, some "a", some "a", some (1 : Nat), some 1⟩] := by
  constructor
  · exact extract_idempotent_amended.2.1 Nat inferInstance [1, 2]
      [⟨OpTag.equal, 0, 2, 0, 2⟩] (by decide)
  · obtain ⟨v, hv, hfil⟩ :=
      (extract_idempotent_amended.2.2.1 String Nat inferInstance inferInstance
        [("a", 1)] [] (DottedNode.strForm "") none).2 "a" (by decide)
        (by decide)
    have hv1 : (1 : Nat) = v :=
      Option.some.inj ((show dlookup "a" [("a", (1 : Nat))] = some 1
        from rfl).symm.trans hv)
    rw [← hv1] at hfil
    exact hfil

/-- Witness for C3: on `first = {a: 1, b: 2}`, `second = {b: 3, c: 4}` with
no ignore set, exactly one patch classifies the shared key `b`. -/
theorem dict_extract_totality_witness :
    ((DictExtractor.extract [("a", 1), ("b", 2)] [("b", 3), ("c", 4)] []
      (DottedNode.strForm "") none).filter
        fun q => decide (q.oldPos = some "b")).length = 1 := by
  obtain ⟨p, hp, -⟩ :=
    (dict_extract_totality [("a", 1), ("b", 2)] [("b", 3), ("c", 4)] []
      (DottedNode.strForm "") none "b").2 (by decide) (by decide)
  rw [hp]
  rfl

/-- Witness for C8: overriding the `list` entry with the sequence extractor
replaces exactly that entry and keeps the `set` entry. -/
theorem registry_init_spec_witness :
    dlookup ExtKey.keyList
      (Extractor.init
        (some [(ExtKey.keyList, ExtEntry.single ExtractorId.seqE)])
        (none : Option Unit) true false none).extractors =
      some (ExtEntry.single ExtractorId.seqE) ∧
    dlookup ExtKey.keySet
      (Extractor.init
        (some [(ExtKey.keyList, ExtEntry.single ExtractorId.seqE)])
        (none : Option Unit) true false none).extractors =
      dlookup ExtKey.keySet defaultExtractorTable :=
  ⟨(@registry_init_spec Unit).2.1
      [(ExtKey.keyList, ExtEntry.single ExtractorId.seqE)] none true false
      none ExtKey.keyList (ExtEntry.single ExtractorId.seqE)
      (by decide) (by decide),
   (@registry_init_spec Unit).2.2.1
      [(ExtKey.keyList, ExtEntry.single ExtractorId.seqE)] none true false
      none ExtKey.keySet (by decide) (by decide)⟩

/-- Witness for C1: a concrete run whose alignment interleaves a
replace-of-unequal-length, an insert run and equal runs. -/
theorem sequence_extract_replay_witness :
    validOps [1, 2, 3, 4, 5] [7, 3, 4, 9, 10, 5]
      [⟨.replace, 0, 2, 0, 1⟩, ⟨.equal, 2, 4, 1, 3⟩, ⟨.insert, 4, 4, 3, 5⟩,
       ⟨.equal, 4, 5, 5, 6⟩] = true ∧
    replay [1, 2, 3, 4, 5]
      (SequenceExtractor.extract [1, 2, 3, 4, 5] [7, 3, 4, 9, 10, 5]
        [⟨.replace, 0, 2, 0, 1⟩, ⟨.equal, 2, 4, 1, 3⟩, ⟨.insert, 4, 4, 3, 5⟩,
         ⟨.equal, 4, 5, 5, 6⟩]) = some [7, 3, 4, 9, 10, 5] :=
  ⟨by decide,
   sequence_extract_replay [1, 2, 3, 4, 5] [7, 3, 4, 9, 10, 5] _ (by decide)⟩

end Dictdiffer
